import Mathlib

/-!
Verification of the heap-allocator core of the repository: the bump allocator,
the alignment utility and the linked-list (first-fit) allocator, shallowly
embedded from `src/allocator/bump.rs` and `src/allocator/linked_list.rs`.

Machine integers (`usize` on the x86_64 target) are modelled as `Nat`;
operations the source performs with explicitly wrapping or checked arithmetic
(`wrapping_add`, `checked_add`, unsigned `-= 1`) are modelled with an explicit
`% USIZE` or an `Option`, mirroring the source.  Raw pointers are modelled as
their integer addresses.
-/

/-- `2 ^ 64`, one past the largest `usize` value on the x86_64 target. -/
def USIZE : Nat := 18446744073709551616

/-- `isize::MAX = 2 ^ 63 - 1` on the x86_64 target. -/
def isizeMAX : Nat := 9223372036854775807

/-- `core::alloc::Layout`: an allocation request of a size and an alignment. -/
structure Layout where
  size : Nat
  align : Nat
deriving DecidableEq

/-- The validity invariant `core::alloc::Layout` enforces at construction:
the alignment is a power of two and the size, rounded up to the alignment,
does not exceed `isize::MAX` (`Layout::from_size_align`). -/
def Layout.valid (l : Layout) : Prop :=
  (∃ k, l.align = 2 ^ k) ∧ l.size + (l.align - 1) ≤ isizeMAX

/-- `align_up` from `src/allocator/bump.rs`: round `addr` up to the next
multiple of `align`.  The source computes `addr - remainder + align` in
plain `usize` arithmetic, which wraps around in release builds when the sum
reaches `2 ^ 64`; hence the `% USIZE` on that branch. -/
def align_up (addr align : Nat) : Nat :=
  let remainder := addr % align
  if remainder = 0 then addr else (addr - remainder + align) % USIZE

/-- `BumpAllocator` from `src/allocator/bump.rs`.  The field `allocation`
is the live-allocation counter. -/
structure BumpAllocator where
  heap_start : Nat
  heap_end : Nat
  next : Nat
  allocation : Nat
deriving DecidableEq

/-- `BumpAllocator::new`. -/
def BumpAllocator.new : BumpAllocator :=
  { heap_start := 0, heap_end := 0, next := 0, allocation := 0 }

/-- `BumpAllocator::init`. -/
def BumpAllocator.init (b : BumpAllocator) (heap_start heap_size : Nat) :
    BumpAllocator :=
  { b with heap_start := heap_start, heap_end := heap_start + heap_size,
           next := heap_start }

/-- `GlobalAlloc::alloc` for `Locked<BumpAllocator>`.  Returns the allocated
address (`none` models the null pointer) together with the updated state.
The source computes `alloc_end` with `usize::wrapping_add`, hence the
`% USIZE`. -/
def BumpAllocator.alloc (b : BumpAllocator) (layout : Layout) :
    Option Nat × BumpAllocator :=
  let alloc_start := align_up b.next layout.align
  let alloc_end := (alloc_start + layout.size) % USIZE
  if b.heap_end < alloc_end then
    (none, b)
  else
    (some alloc_start,
     { b with next := alloc_end, allocation := b.allocation + 1 })

/-- `GlobalAlloc::dealloc` for `Locked<BumpAllocator>`.  The source decrements
the unsigned counter with no prior check (wraps at zero, modelled by the
`% USIZE` decrement) and compares `<= 0`, which for a `usize` means `= 0`.
The `ptr` and `layout` arguments are ignored, exactly as in the source. -/
def BumpAllocator.dealloc (b : BumpAllocator) (ptr : Nat) (layout : Layout) :
    BumpAllocator :=
  let allocation := (USIZE - 1 + b.allocation) % USIZE
  if allocation = 0 then
    { b with allocation := allocation, next := b.heap_start }
  else
    { b with allocation := allocation }

/-! ### Alignment utility: basic facts -/

/-- When the rounded address does not overflow (`a + al ≤ 2 ^ 64`),
`align_up` behaves like mathematical rounding: a multiple of `al`, at least
`a`, below `a + al`. -/
theorem align_up_dvd_le_lt (a al : Nat) (h : 0 < al)
    (hnw : a + al ≤ USIZE) :
    al ∣ align_up a al ∧ a ≤ align_up a al ∧ align_up a al < a + al := by
  unfold align_up
  have hmod := Nat.mod_lt a h
  have hdm := Nat.div_add_mod a al
  by_cases h0 : a % al = 0
  · simp only [h0, if_pos]
    refine ⟨(Nat.dvd_of_mod_eq_zero h0), Nat.le_refl a, by omega⟩
  · simp only [h0, if_neg, if_false]
    have hlt : a - a % al + al < USIZE := by omega
    rw [Nat.mod_eq_of_lt hlt]
    have hsub : a - a % al = al * (a / al) := by omega
    refine ⟨?_, by omega, by omega⟩
    rw [hsub]
    exact ⟨a / al + 1, by ring⟩

/-- A multiple of the alignment is its own rounding (no wrap can occur: the
remainder branch is not taken). -/
theorem align_up_of_dvd (a al : Nat) (h : al ∣ a) : align_up a al = a := by
  unfold align_up
  simp [Nat.mod_eq_zero_of_dvd h]

/-- Conversely, for a `usize`-sized alignment, a fixed point of `align_up`
is a multiple of the alignment, wrapped branch included. -/
theorem dvd_of_align_up_eq (a al : Nat) (h : 0 < al) (hal : al ≤ USIZE)
    (he : align_up a al = a) : al ∣ a := by
  by_cases h0 : a % al = 0
  · exact Nat.dvd_of_mod_eq_zero h0
  · exfalso
    unfold align_up at he
    simp only [h0, if_neg, if_false] at he
    have hmod := Nat.mod_lt a h
    have hUpos : 0 < USIZE := by decide
    by_cases ha : a < USIZE
    · by_cases hu : a - a % al + al < USIZE
      · rw [Nat.mod_eq_of_lt hu] at he
        omega
      · have hlt2 : a - a % al + al - USIZE < USIZE := by omega
        rw [Nat.mod_eq_sub_mod (Nat.le_of_not_lt hu),
          Nat.mod_eq_of_lt hlt2] at he
        have hle : a % al ≤ a := Nat.mod_le a al
        generalize a % al = c at *
        omega
    · have := Nat.mod_lt (a - a % al + al) hUpos
      omega

/-- A power of two dividing a value still divides its `usize` wrap: either
the power divides `2 ^ 64`, or it forces the wrapped value to zero. -/
theorem pow2_dvd_mod_usize (j x : Nat) (h : 2 ^ j ∣ x) :
    2 ^ j ∣ x % USIZE := by
  have hU : USIZE = 2 ^ 64 := by decide
  by_cases hj : j ≤ 64
  · rw [hU]
    exact (Nat.dvd_mod_iff (pow_dvd_pow 2 hj)).mpr h
  · have h64 : (2 : Nat) ^ 64 ∣ x :=
      dvd_trans (pow_dvd_pow 2 (by omega)) h
    rw [hU, Nat.mod_eq_zero_of_dvd h64]
    exact dvd_zero _

/-- A power-of-two alignment always divides the result of `align_up`, even
through the wraparound. -/
theorem align_up_dvd_pow2 (a j : Nat) : 2 ^ j ∣ align_up a (2 ^ j) := by
  unfold align_up
  by_cases h0 : a % 2 ^ j = 0
  · simp only [h0, if_pos]
    exact Nat.dvd_of_mod_eq_zero h0
  · simp only [h0, if_neg, if_false]
    refine pow2_dvd_mod_usize j _ ?_
    have hdm := Nat.div_add_mod a (2 ^ j)
    have hsub : a - a % 2 ^ j = 2 ^ j * (a / 2 ^ j) := by omega
    rw [hsub]
    exact ⟨a / 2 ^ j + 1, by ring⟩

/-! ### C5: alignment utility postconditions (corrected)

The source rounds with plain `usize` arithmetic (`addr - remainder + align`),
which overflows for addresses near the top of the address space: in a
release build the result wraps below the address, so the claimed
postconditions do not hold for every address.  They hold exactly when the
rounded value fits in the address type. -/

/-- C5 counterexample.  At the largest `usize` address and the power-of-two
alignment `2 = 2 ^ 1`, the source's `addr - remainder + align` is `2 ^ 64`:
the release build returns the wrapped value `0`, which is not at least the
address. -/
theorem align_up_postconditions_cex :
    (2 : Nat) = 2 ^ 1 ∧
    align_up (USIZE - 1) 2 = 0 ∧
    ¬ (USIZE - 1 ≤ align_up (USIZE - 1) 2) := by
  refine ⟨by decide, by decide, by decide⟩

/-- C5 amended.  For every address and every power-of-two alignment `2 ^ k`
whose rounded address cannot overflow (`address + 2 ^ k ≤ 2 ^ 64`),
`align_up` returns a multiple of the alignment that is at least the address
and strictly less than the address plus the alignment. -/
theorem align_up_postconditions (address k : Nat)
    (hnw : address + 2 ^ k ≤ USIZE) :
    align_up address (2 ^ k) % 2 ^ k = 0 ∧
    address ≤ align_up address (2 ^ k) ∧
    align_up address (2 ^ k) < address + 2 ^ k := by
  have hpos : 0 < 2 ^ k := Nat.pos_pow_of_pos k (by omega)
  obtain ⟨hd, hle, hlt⟩ := align_up_dvd_le_lt address (2 ^ k) hpos hnw
  exact ⟨Nat.mod_eq_zero_of_dvd hd, hle, hlt⟩

/-- Witness for the amended C5 at address 13 and alignment `8 = 2 ^ 3`. -/
theorem align_up_postconditions_witness :
    align_up 13 (2 ^ 3) % 2 ^ 3 = 0 ∧
    13 ≤ align_up 13 (2 ^ 3) ∧
    align_up 13 (2 ^ 3) < 13 + 2 ^ 3 :=
  align_up_postconditions 13 3 (by decide)

/-! ### C10: bump release ignores its arguments -/

/-- C10.  The bump allocator's `dealloc` produces the same state whatever
pointer and layout it is given: its effect depends only on the stored
live-allocation counter. -/
theorem bump_dealloc_ignores_args (b : BumpAllocator) (p₁ p₂ : Nat)
    (l₁ l₂ : Layout) : b.dealloc p₁ l₁ = b.dealloc p₂ l₂ := rfl

/-! ### C2: bump allocate success postcondition -/

/-- C2.  Whenever `alloc_end = align_up(next, align) + size` does not exceed
`heap_end` (and `heap_end` is a `usize` value, i.e. below `2 ^ 64`), bump
`alloc` returns `alloc_start`, sets `next` to `alloc_end`, increments the
live-allocation counter by exactly one, and leaves `heap_start` and
`heap_end` unchanged. -/
theorem bump_alloc_success (b : BumpAllocator) (l : Layout)
    (hend : b.heap_end < USIZE)
    (hfit : align_up b.next l.align + l.size ≤ b.heap_end) :
    b.alloc l = (some (align_up b.next l.align),
      { b with next := align_up b.next l.align + l.size,
               allocation := b.allocation + 1 }) := by
  have hlt : align_up b.next l.align + l.size < USIZE := by omega
  simp only [BumpAllocator.alloc, Nat.mod_eq_of_lt hlt,
    if_neg (by omega : ¬ b.heap_end < align_up b.next l.align + l.size)]

/-- Witness for C2 on a concrete heap `[0, 100)` and layout `(10, 4)`. -/
theorem bump_alloc_success_witness :
    BumpAllocator.alloc { heap_start := 0, heap_end := 100, next := 0, allocation := 0 }
      { size := 10, align := 4 } =
    (some 0, { heap_start := 0, heap_end := 100, next := 10, allocation := 1 }) :=
  bump_alloc_success
    { heap_start := 0, heap_end := 100, next := 0, allocation := 0 }
    { size := 10, align := 4 } (by decide) (by decide)

/-! ### C3: bump exhaustion (corrected)

The source computes `alloc_end` with `usize::wrapping_add`.  When
`align_up(next, align) + size` overflows the address type, the wrapped value
can fall back inside the heap and the allocation wrongly succeeds, so the
claim as stated (with mathematical addition) is false; it holds as soon as
the addition does not overflow. -/

/-- C3 counterexample.  A freshly initialised bump allocator over the top of
the address space, `heap = [2^64 - 17, 2^64 - 1)`, and the Rust-valid layout
`(32, 1)`: the mathematical `alloc_end` exceeds `heap_end`, yet `alloc`
succeeds and mutates both `next` and the counter, because the wrapped
`alloc_end` is `15`. -/
theorem bump_exhaustion_cex :
    (Layout.valid { size := 32, align := 1 }) ∧
    (let b := BumpAllocator.new.init (USIZE - 17) 16
     b.heap_end < align_up b.next 1 + 32 ∧
     b.alloc { size := 32, align := 1 } =
       (some (USIZE - 17),
        { heap_start := USIZE - 17, heap_end := USIZE - 1, next := 15,
          allocation := 1 })) := by
  refine ⟨⟨⟨0, rfl⟩, by decide⟩, by decide, by decide⟩

/-- C3 amended.  Whenever `alloc_end = align_up(next, align) + size` does not
overflow the address type and exceeds `heap_end`, bump `alloc` fails with the
null signal and leaves the state (in particular `next` and the counter)
unchanged. -/
theorem bump_exhaustion (b : BumpAllocator) (l : Layout)
    (hnof : align_up b.next l.align + l.size < USIZE)
    (hbig : b.heap_end < align_up b.next l.align + l.size) :
    b.alloc l = (none, b) := by
  simp only [BumpAllocator.alloc, Nat.mod_eq_of_lt hnof, if_pos hbig]

/-- Witness for the amended C3: heap `[0, 100)`, request of 200 bytes. -/
theorem bump_exhaustion_witness :
    BumpAllocator.alloc { heap_start := 0, heap_end := 100, next := 0, allocation := 0 }
      { size := 200, align := 1 } =
    (none, { heap_start := 0, heap_end := 100, next := 0, allocation := 0 }) :=
  bump_exhaustion
    { heap_start := 0, heap_end := 100, next := 0, allocation := 0 }
    { size := 200, align := 1 } (by decide) (by decide)

/-! ### Sequences of bump-allocator operations -/

/-- A call on the locked bump allocator. -/
inductive BumpOp where
  | alloc (layout : Layout)
  | dealloc (ptr : Nat) (layout : Layout)
deriving DecidableEq

/-- The state after one call. -/
def BumpOp.apply (b : BumpAllocator) : BumpOp → BumpAllocator
  | .alloc l => (b.alloc l).2
  | .dealloc p l => b.dealloc p l

/-- The state after a sequence of calls. -/
def bumpRun (b : BumpAllocator) : List BumpOp → BumpAllocator
  | [] => b
  | op :: ops => bumpRun (op.apply b) ops

/-- Every `alloc` call in the run returns a non-null address. -/
def bumpAllSucceed (b : BumpAllocator) : List BumpOp → Bool
  | [] => true
  | op :: ops =>
    (match op with
     | .alloc l => (b.alloc l).1.isSome
     | .dealloc _ _ => true) && bumpAllSucceed (op.apply b) ops

/-- No `dealloc` call in the run brings the live-allocation counter back to
zero (the "no intervening full release" side condition). -/
def bumpNoFullRelease (b : BumpAllocator) : List BumpOp → Bool
  | [] => true
  | op :: ops =>
    (match op with
     | .alloc _ => true
     | .dealloc p l => (b.dealloc p l).allocation != 0) &&
    bumpNoFullRelease (op.apply b) ops

/-- The `(alloc_start, layout.size)` ranges returned by the successful
`alloc` calls of the run, in call order. -/
def bumpRanges (b : BumpAllocator) : List BumpOp → List (Nat × Nat)
  | [] => []
  | .alloc l :: ops =>
    (match (b.alloc l).1 with
     | some s => [(s, l.size)]
     | none => []) ++ bumpRanges ((b.alloc l).2) ops
  | .dealloc p l :: ops => bumpRanges (b.dealloc p l) ops

/-- The layout carried by an `alloc` call satisfies the `Layout` invariant
(a `dealloc` call's arguments are ignored by the bump allocator). -/
def BumpOp.layoutValid : BumpOp → Prop
  | .alloc l => l.valid
  | .dealloc _ _ => True

theorem bump_alloc_isSome (b : BumpAllocator) (l : Layout)
    (h : (b.alloc l).1.isSome = true) :
    b.alloc l = (some (align_up b.next l.align),
      { b with next := (align_up b.next l.align + l.size) % USIZE,
               allocation := b.allocation + 1 }) := by
  by_cases hc : b.heap_end < (align_up b.next l.align + l.size) % USIZE
  · exfalso
    simp [BumpAllocator.alloc, hc] at h
  · simp [BumpAllocator.alloc, hc]

theorem bump_dealloc_allocation (b : BumpAllocator) (p : Nat) (l : Layout) :
    (b.dealloc p l).allocation = (USIZE - 1 + b.allocation) % USIZE := by
  by_cases h : (USIZE - 1 + b.allocation) % USIZE = 0
  · simp [BumpAllocator.dealloc, h]
  · simp [BumpAllocator.dealloc, h]

theorem bump_dealloc_of_ne (b : BumpAllocator) (p : Nat) (l : Layout)
    (h : (USIZE - 1 + b.allocation) % USIZE ≠ 0) :
    b.dealloc p l = { b with allocation := (USIZE - 1 + b.allocation) % USIZE } := by
  simp only [BumpAllocator.dealloc, if_neg h]

/-- If a valid layout is requested from a state whose cursor sits inside a
heap bounded by `2 ^ 63`, the address computation cannot wrap. -/
theorem bump_no_wrap (b : BumpAllocator) (l : Layout) (hv : l.valid)
    (hnext : b.next ≤ b.heap_end) (hend : b.heap_end ≤ isizeMAX + 1) :
    align_up b.next l.align + l.size < USIZE := by
  obtain ⟨⟨k, hk⟩, hsz⟩ := hv
  have hpos : 0 < l.align := by
    rw [hk]; exact Nat.pos_pow_of_pos k (by omega)
  have hU : USIZE = 18446744073709551616 := rfl
  have hI : isizeMAX = 9223372036854775807 := rfl
  have hnw : b.next + l.align ≤ USIZE := by omega
  have h1 := (align_up_dvd_le_lt b.next l.align hpos hnw).2.2
  omega

/-- Invariant lemma behind C1: along a run in which every allocation succeeds
and the live count never returns to zero, all ranges handed out lie between
the current cursor and `heap_end`, and they are laid out left to right. -/
theorem bumpRanges_spec (ops : List BumpOp) : ∀ b : BumpAllocator,
    b.heap_start ≤ b.next → b.next ≤ b.heap_end → b.heap_end ≤ isizeMAX + 1 →
    (∀ op ∈ ops, op.layoutValid) →
    bumpAllSucceed b ops = true →
    bumpNoFullRelease b ops = true →
    (∀ r ∈ bumpRanges b ops, b.next ≤ r.1 ∧ r.1 + r.2 ≤ b.heap_end) ∧
    (bumpRanges b ops).Pairwise (fun r r' => r.1 + r.2 ≤ r'.1) := by
  induction ops with
  | nil =>
    intro b _ _ _ _ _ _
    simp [bumpRanges]
  | cons op ops ih =>
    intro b h1 h2 h3 hv hs hn
    cases op with
    | alloc l =>
      have hvl : l.valid := hv (.alloc l) (List.mem_cons_self _ _)
      have hw : align_up b.next l.align + l.size < USIZE :=
        bump_no_wrap b l hvl h2 h3
      simp only [bumpAllSucceed, Bool.and_eq_true] at hs
      have halloc := bump_alloc_isSome b l hs.1
      rw [Nat.mod_eq_of_lt hw] at halloc
      -- success means the wrapped end, hence the true end, is inside the heap
      have hfit : align_up b.next l.align + l.size ≤ b.heap_end := by
        by_contra hcon
        have := bump_exhaustion b l hw (by omega)
        rw [this] at halloc
        simp at halloc
      have hpos : 0 < l.align := by
        obtain ⟨⟨k, hk⟩, _⟩ := hvl
        rw [hk]; exact Nat.pos_pow_of_pos k (by omega)
      have hnwn : b.next + l.align ≤ USIZE := by
        obtain ⟨⟨k, hk⟩, hsz⟩ := hvl
        have hU : USIZE = 18446744073709551616 := rfl
        have hI : isizeMAX = 9223372036854775807 := rfl
        omega
      have hle := (align_up_dvd_le_lt b.next l.align hpos hnwn).2.1
      simp only [bumpNoFullRelease, Bool.and_eq_true] at hn
      simp only [bumpRanges, halloc, List.singleton_append]
      set b' : BumpAllocator :=
        { b with next := align_up b.next l.align + l.size,
                 allocation := b.allocation + 1 } with hb'
      have happ : BumpOp.apply b (.alloc l) = b' := by
        simp only [BumpOp.apply, halloc]
      rw [happ] at hs hn
      have ihb := ih b' (by simp [hb']; omega) (by simp [hb', hfit])
        (by simp [hb', h3])
        (fun o ho => hv o (List.mem_cons_of_mem _ ho)) hs.2 hn.2
      constructor
      · intro r hr
        rcases List.mem_cons.mp hr with hr | hr
        · subst hr
          exact ⟨hle, hfit⟩
        · have := (ihb.1 r hr)
          simp only [hb'] at this
          exact ⟨by omega, this.2⟩
      · refine List.Pairwise.cons ?_ ihb.2
        intro r hr
        have := (ihb.1 r hr).1
        simp only [hb'] at this
        exact this
    | dealloc p l =>
      simp only [bumpNoFullRelease, Bool.and_eq_true, bne_iff_ne, ne_eq] at hn
      have hne : (USIZE - 1 + b.allocation) % USIZE ≠ 0 := by
        intro h0
        exact hn.1 (by rw [bump_dealloc_allocation, h0])
      have hd := bump_dealloc_of_ne b p l hne
      simp only [bumpAllSucceed, Bool.and_eq_true] at hs
      simp only [bumpRanges, hd]
      have happ : BumpOp.apply b (.dealloc p l) =
          { b with allocation := (USIZE - 1 + b.allocation) % USIZE } := by
        simp only [BumpOp.apply, hd]
      rw [happ] at hs hn
      exact ih _ h1 h2 h3 (fun o ho => hv o (List.mem_cons_of_mem _ ho)) hs.2 hn.2

/-! ### C1: bump no-overlap (corrected)

Because `alloc` computes `alloc_end` with `wrapping_add`, a heap placed at
the very top of the address space lets a successful allocation wrap around,
and the returned range then falls outside `[heap_start, heap_end)`.  The
property holds once the heap is confined to the lower half of the address
space, where no address computation can wrap. -/

/-- C1 counterexample.  Heap `[2^64 - 17, 2^64 - 1)` (a legal `usize`
range), one successful allocation with the Rust-valid layout `(32, 1)`, no
release at all: every hypothesis of the claim holds, yet the returned range
does not lie within `[heap_start, heap_end)`. -/
theorem bump_no_overlap_cex :
    (∀ op ∈ [BumpOp.alloc { size := 32, align := 1 }], op.layoutValid) ∧
    bumpAllSucceed (BumpAllocator.new.init (USIZE - 17) 16)
      [BumpOp.alloc { size := 32, align := 1 }] = true ∧
    bumpNoFullRelease (BumpAllocator.new.init (USIZE - 17) 16)
      [BumpOp.alloc { size := 32, align := 1 }] = true ∧
    ¬ (∀ r ∈ bumpRanges (BumpAllocator.new.init (USIZE - 17) 16)
          [BumpOp.alloc { size := 32, align := 1 }],
        (BumpAllocator.new.init (USIZE - 17) 16).heap_start ≤ r.1 ∧
        r.1 + r.2 ≤ (BumpAllocator.new.init (USIZE - 17) 16).heap_end) := by
  refine ⟨?_, by decide, by decide, by decide⟩
  intro op hop
  rw [List.mem_singleton] at hop
  subst hop
  exact ⟨⟨0, rfl⟩, by decide⟩

/-- C1 amended.  For every sequence of calls on a freshly initialised bump
allocator whose heap lies in the lower half of the address space
(`heap_start + heap_size ≤ 2^63`, so no address computation wraps), with
Rust-valid layouts, in which every allocation succeeds and no release brings
the live count back to zero, the returned ranges
`[alloc_start, alloc_start + size)` are pairwise disjoint and each lies
within `[heap_start, heap_end)`. -/
theorem bump_no_overlap (heap_start heap_size : Nat) (ops : List BumpOp)
    (hbound : heap_start + heap_size ≤ isizeMAX + 1)
    (hvalid : ∀ op ∈ ops, op.layoutValid)
    (hsucc : bumpAllSucceed (BumpAllocator.new.init heap_start heap_size) ops
      = true)
    (hnofull : bumpNoFullRelease (BumpAllocator.new.init heap_start heap_size)
      ops = true) :
    (bumpRanges (BumpAllocator.new.init heap_start heap_size) ops).Pairwise
      (fun r r' => r.1 + r.2 ≤ r'.1 ∨ r'.1 + r'.2 ≤ r.1) ∧
    ∀ r ∈ bumpRanges (BumpAllocator.new.init heap_start heap_size) ops,
      heap_start ≤ r.1 ∧ r.1 + r.2 ≤ heap_start + heap_size := by
  have h := bumpRanges_spec ops (BumpAllocator.new.init heap_start heap_size)
    (Nat.le_refl _) (Nat.le_add_right _ _) hbound hvalid hsucc hnofull
  exact ⟨h.2.imp (fun hr => Or.inl hr), fun r hr => h.1 r hr⟩

/-- Witness for the amended C1: heap `[0, 100)`, two allocations, a release
that keeps the live count positive, then a third allocation. -/
theorem bump_no_overlap_witness :
    (bumpRanges (BumpAllocator.new.init 0 100)
      [BumpOp.alloc { size := 10, align := 4 }, BumpOp.alloc { size := 7, align := 1 },
       BumpOp.dealloc 0 { size := 10, align := 4 },
       BumpOp.alloc { size := 3, align := 2 }]).Pairwise
      (fun r r' => r.1 + r.2 ≤ r'.1 ∨ r'.1 + r'.2 ≤ r.1) ∧
    ∀ r ∈ bumpRanges (BumpAllocator.new.init 0 100)
      [BumpOp.alloc { size := 10, align := 4 }, BumpOp.alloc { size := 7, align := 1 },
       BumpOp.dealloc 0 { size := 10, align := 4 },
       BumpOp.alloc { size := 3, align := 2 }],
      0 ≤ r.1 ∧ r.1 + r.2 ≤ 0 + 100 :=
  bump_no_overlap 0 100
    [BumpOp.alloc { size := 10, align := 4 }, BumpOp.alloc { size := 7, align := 1 },
     BumpOp.dealloc 0 { size := 10, align := 4 },
     BumpOp.alloc { size := 3, align := 2 }]
    (by decide)
    (by
      intro op hop
      simp only [List.mem_cons] at hop
      rcases hop with rfl | rfl | rfl | rfl | h
      · exact ⟨⟨2, rfl⟩, by decide⟩
      · exact ⟨⟨0, rfl⟩, by decide⟩
      · trivial
      · exact ⟨⟨1, rfl⟩, by decide⟩
      · exact absurd h (by simp))
    (by decide) (by decide)

/-! ### C4: bump epoch reset -/

/-- `balancedFrom c ops` holds when, starting from a live count of `c`, the
op sequence never releases more than has been allocated so far and ends with
the count back at zero. -/
def balancedFrom (c : Nat) : List BumpOp → Bool
  | [] => c == 0
  | .alloc _ :: ops => balancedFrom (c + 1) ops
  | .dealloc _ _ :: ops => c != 0 && balancedFrom (c - 1) ops

/-- After a balanced run of successful allocations and matching releases the
counter is zero and `next` has been reset to `heap_start` (the heap bounds
never change). -/
theorem bumpRun_balanced (ops : List BumpOp) : ∀ b : BumpAllocator,
    b.allocation + ops.length ≤ USIZE →
    balancedFrom b.allocation ops = true →
    bumpAllSucceed b ops = true →
    (b.allocation = 0 → b.next = b.heap_start) →
    (bumpRun b ops).allocation = 0 ∧ (bumpRun b ops).next = b.heap_start ∧
    (bumpRun b ops).heap_start = b.heap_start ∧
    (bumpRun b ops).heap_end = b.heap_end := by
  induction ops with
  | nil =>
    intro b _ hbal _ hreset
    simp only [balancedFrom, beq_iff_eq] at hbal
    exact ⟨hbal, hreset hbal, rfl, rfl⟩
  | cons op ops ih =>
    intro b hlen hbal hsucc hreset
    simp only [List.length_cons] at hlen
    cases op with
    | alloc l =>
      simp only [bumpAllSucceed, Bool.and_eq_true] at hsucc
      have halloc := bump_alloc_isSome b l hsucc.1
      have happ : BumpOp.apply b (.alloc l) =
          { b with next := (align_up b.next l.align + l.size) % USIZE,
                   allocation := b.allocation + 1 } := by
        simp only [BumpOp.apply, halloc]
      simp only [balancedFrom] at hbal
      have hrun : bumpRun b (.alloc l :: ops) =
          bumpRun (BumpOp.apply b (.alloc l)) ops := rfl
      rw [hrun, happ]
      rw [happ] at hsucc
      exact ih _ (by simpa using by omega) hbal hsucc.2
        (fun h0 => absurd h0 (by simp))
    | dealloc p l =>
      simp only [balancedFrom, Bool.and_eq_true, bne_iff_ne, ne_eq] at hbal
      simp only [bumpAllSucceed, Bool.and_eq_true] at hsucc
      have hdec : (USIZE - 1 + b.allocation) % USIZE = b.allocation - 1 := by
        have he : USIZE - 1 + b.allocation = (b.allocation - 1) + USIZE := by
          have hU : USIZE = 18446744073709551616 := rfl
          omega
        rw [he, Nat.add_mod_right, Nat.mod_eq_of_lt (by
          have hU : USIZE = 18446744073709551616 := rfl
          omega)]
      have hrun : bumpRun b (.dealloc p l :: ops) =
          bumpRun (BumpOp.apply b (.dealloc p l)) ops := rfl
      by_cases hz : b.allocation - 1 = 0
      · have hd : b.dealloc p l =
            { b with allocation := b.allocation - 1, next := b.heap_start } := by
          simp only [BumpAllocator.dealloc, hdec, hz, if_pos]
        have happ : BumpOp.apply b (.dealloc p l) =
            { b with allocation := b.allocation - 1, next := b.heap_start } := by
          simp only [BumpOp.apply, hd]
        rw [hrun, happ]
        rw [happ] at hsucc
        exact ih _ (by simp only [List.length_cons] at *; omega) hbal.2 hsucc.2
          (fun _ => rfl)
      · have hd := bump_dealloc_of_ne b p l (by rw [hdec]; exact hz)
        rw [hdec] at hd
        have happ : BumpOp.apply b (.dealloc p l) =
            { b with allocation := b.allocation - 1 } := by
          simp only [BumpOp.apply, hd]
        rw [hrun, happ]
        rw [happ] at hsucc
        exact ih _ (by simp only [List.length_cons] at *; omega) hbal.2 hsucc.2
          (fun h0 => absurd h0 hz)

/-- C4.  Starting from a freshly initialised bump allocator, after any
balanced sequence of successful allocations and releases (never releasing
more than allocated so far, count back to zero at the end), the next
`alloc(layout)` call — provided it fits in the heap — returns
`align_up(heap_start, layout.align)`: the whole heap is reclaimed in one
step. -/
theorem bump_epoch_reset (heap_start heap_size : Nat) (ops : List BumpOp)
    (l : Layout)
    (hlen : ops.length ≤ USIZE)
    (hbal : balancedFrom 0 ops = true)
    (hsucc : bumpAllSucceed (BumpAllocator.new.init heap_start heap_size) ops
      = true)
    (hheap : heap_start + heap_size < USIZE)
    (hfit : align_up heap_start l.align + l.size ≤ heap_start + heap_size) :
    ((bumpRun (BumpAllocator.new.init heap_start heap_size) ops).alloc l).1 =
      some (align_up heap_start l.align) := by
  obtain ⟨ha, hn, hhs, hhe⟩ := bumpRun_balanced ops
    (BumpAllocator.new.init heap_start heap_size)
    (by show 0 + ops.length ≤ USIZE; omega) hbal hsucc (fun _ => rfl)
  have hnext : (bumpRun (BumpAllocator.new.init heap_start heap_size) ops).next
      = heap_start := hn
  have hend : (bumpRun (BumpAllocator.new.init heap_start heap_size) ops).heap_end
      = heap_start + heap_size := hhe
  rw [bump_alloc_success _ l (by rw [hend]; exact hheap)
    (by rw [hnext, hend]; exact hfit)]
  rw [hnext]

/-- Witness for C4: heap `[0, 100)`, one allocation and its release, then an
allocation with layout `(16, 8)` returning `align_up(0, 8) = 0`. -/
theorem bump_epoch_reset_witness :
    ((bumpRun (BumpAllocator.new.init 0 100)
        [BumpOp.alloc { size := 8, align := 4 },
         BumpOp.dealloc 0 { size := 8, align := 4 }]).alloc
      { size := 16, align := 8 }).1 = some 0 :=
  bump_epoch_reset 0 100
    [BumpOp.alloc { size := 8, align := 4 },
     BumpOp.dealloc 0 { size := 8, align := 4 }]
    { size := 16, align := 8 }
    (by decide) (by decide) (by decide) (by decide) (by decide)

/-! ### The linked-list (first-fit) allocator, from `src/allocator/linked_list.rs`

The intrusive free list is embedded as the list of the regions its nodes
describe, in link order starting after the sentinel head: a `ListNode`
stored at address `start_addr` and carrying `size` becomes the record below.
On the x86_64 target `mem::size_of::<ListNode>() = 16` (a `usize` plus a
nullable reference) and `mem::align_of::<ListNode>() = 8`. -/

structure ListNode where
  start_addr : Nat
  size : Nat
deriving DecidableEq

/-- `ListNode::end_addr`. -/
def ListNode.end_addr (n : ListNode) : Nat := n.start_addr + n.size

/-- `mem::size_of::<ListNode>()` on x86_64. -/
def sizeOfListNode : Nat := 16

/-- `mem::align_of::<ListNode>()` on x86_64. -/
def alignOfListNode : Nat := 8

/-- `usize::checked_add`. -/
def checked_add (a b : Nat) : Option Nat :=
  if a + b < USIZE then some (a + b) else none

/-- `LinkedListAllocator::add_free_region`: link a new node at the front of
the list.  Its two `assert!`s are modelled by returning `none` (a panic)
when they fail. -/
def add_free_region (fl : List ListNode) (addr size : Nat) :
    Option (List ListNode) :=
  if align_up addr alignOfListNode = addr ∧ sizeOfListNode ≤ size then
    some ({ start_addr := addr, size := size } :: fl)
  else
    none

/-- `LinkedListAllocator::init`: seed the empty list (`new` produces only
the sentinel head) with one region spanning the whole heap. -/
def LinkedListAllocator.init (heap_start heap_size : Nat) :
    Option (List ListNode) :=
  add_free_region [] heap_start heap_size

/-- `LinkedListAllocator::alloc_from_region`. -/
def alloc_from_region (region : ListNode) (size align : Nat) : Option Nat :=
  let alloc_start := align_up region.start_addr align
  match checked_add alloc_start size with
  | none => none
  | some alloc_end =>
    if region.end_addr < alloc_end then
      none
    else
      let excess_size := region.end_addr - alloc_end
      if 0 < excess_size ∧ excess_size < sizeOfListNode then
        none
      else
        some alloc_start

/-- `LinkedListAllocator::find_region`: first-fit walk of the list; on
success the found node is detached (its predecessor spliced to its
successor) and returned together with the allocation start address. -/
def find_region (fl : List ListNode) (size align : Nat) :
    Option (ListNode × Nat × List ListNode) :=
  match fl with
  | [] => none
  | region :: rest =>
    match alloc_from_region region size align with
    | some alloc_start => some (region, alloc_start, rest)
    | none =>
      (find_region rest size align).map
        (fun x => (x.1, x.2.1, region :: x.2.2))

/-- `LinkedListAllocator::size_align`: raise the alignment to the node's
(`Layout::align_to`), pad the size to that alignment (`pad_to_align`), and
raise it to the node footprint. -/
def size_align (layout : Layout) : Nat × Nat :=
  let align := max layout.align alignOfListNode
  let size := max (align_up layout.size align) sizeOfListNode
  (size, align)

/-- `GlobalAlloc::alloc` for `Locked<LinkedListAllocator>`.  The outer
`Option` is a panic (a failed `assert!` while reinserting the excess);
inside it, `none` models the returned null pointer.  In the success path
the source recomputes `alloc_start.checked_add(size).expect(..)`; that sum
was already checked inside `alloc_from_region`, so it is plain addition
here. -/
def LinkedListAllocator.alloc (fl : List ListNode) (layout : Layout) :
    Option (Option Nat × List ListNode) :=
  let sa := size_align layout
  match find_region fl sa.1 sa.2 with
  | some (region, alloc_start, rest) =>
    let alloc_end := alloc_start + sa.1
    let excess_size := region.end_addr - alloc_end
    if 0 < excess_size then
      (add_free_region rest alloc_end excess_size).map
        (fun fl2 => (some alloc_start, fl2))
    else
      some (some alloc_start, rest)
  | none => some (none, fl)

/-- `GlobalAlloc::dealloc` for `Locked<LinkedListAllocator>`: adjust the
layout exactly as `alloc` did and link the freed block at the front of the
list. -/
def LinkedListAllocator.dealloc (fl : List ListNode) (ptr : Nat)
    (layout : Layout) : Option (List ListNode) :=
  add_free_region fl ptr (size_align layout).1

/-- Closed form of `alloc_from_region` as a decision tree. -/
theorem afr_eq (region : ListNode) (size align : Nat) :
    alloc_from_region region size align =
      if align_up region.start_addr align + size < USIZE then
        if region.end_addr < align_up region.start_addr align + size then
          none
        else if 0 < region.end_addr - (align_up region.start_addr align + size) ∧
            region.end_addr - (align_up region.start_addr align + size) <
              sizeOfListNode then
          none
        else
          some (align_up region.start_addr align)
      else
        none := by
  by_cases h1 : align_up region.start_addr align + size < USIZE
  · simp [alloc_from_region, checked_add, h1]
  · simp [alloc_from_region, checked_add, h1]

/-! ### C6: `alloc_from_region` raises-iff (corrected)

`alloc_from_region` computes `alloc_start` with `align_up`, whose rounding
wraps in release builds.  When the rounded start itself overflows the
address type, the wrapped (small) start passes the `checked_add` and the
bounds checks, so the routine succeeds where the claim's mathematical
reading — `alloc_start + size` overflows, hence fail closed — demands a
failure.  The characterisation holds once the aligned start cannot
overflow. -/

/-- C6 counterexample.  The Rust-valid layout `(0, 2^63)` adjusts to
`(16, 2^63)`; against a region starting at `2^63 + 8`, the mathematical
aligned start is `2^64`, so `alloc_start + size` overflows the address type
and the claim demands a closed failure — yet the source's wrapped rounding
yields `alloc_start = 0` and the call succeeds, returning `Ok(0)`. -/
theorem alloc_from_region_raises_iff_cex :
    Layout.valid { size := 0, align := 9223372036854775808 } ∧
    size_align { size := 0, align := 9223372036854775808 } =
      (16, 9223372036854775808) ∧
    USIZE ≤ 9223372036854775816 - 9223372036854775816 % 9223372036854775808
      + 9223372036854775808 + 16 ∧
    alloc_from_region { start_addr := 9223372036854775816, size := 16 } 16
      9223372036854775808 = some 0 := by
  refine ⟨⟨⟨63, rfl⟩, by decide⟩, by decide, by decide, by decide⟩

/-- C6 amended.  Provided the aligned start cannot overflow the address type
(`region.start + align ≤ 2 ^ 64`), `alloc_from_region` fails exactly when
`alloc_start + size` overflows the address type, or the allocation end
exceeds the region's end address, or the excess `region.end - alloc_end` is
strictly between zero and the `ListNode` footprint; in every other case it
succeeds and the returned address is
`alloc_start = align_up(region.start, align)`. -/
theorem alloc_from_region_raises_iff (region : ListNode) (size align : Nat)
    (hnw : region.start_addr + align ≤ USIZE) :
    (alloc_from_region region size align = none ↔
      (USIZE ≤ align_up region.start_addr align + size ∨
       region.end_addr < align_up region.start_addr align + size ∨
       (0 < region.end_addr - (align_up region.start_addr align + size) ∧
        region.end_addr - (align_up region.start_addr align + size) <
          sizeOfListNode))) ∧
    ∀ s, alloc_from_region region size align = some s →
      s = align_up region.start_addr align := by
  rw [afr_eq]
  split_ifs with h1 h2 h3
  · exact ⟨iff_of_true rfl (Or.inr (Or.inl h2)), fun s hs => by simp at hs⟩
  · exact ⟨iff_of_true rfl (Or.inr (Or.inr h3)), fun s hs => by simp at hs⟩
  · constructor
    · refine iff_of_false (by simp) ?_
      push_neg
      exact ⟨by omega, by omega, fun h => by omega⟩
    · intro s hs
      rw [Option.some.injEq] at hs
      exact hs.symm
  · exact ⟨iff_of_true rfl (Or.inl (by omega)), fun s hs => by simp at hs⟩

/-- Witness for the amended C6 on the region `[16, 80)` with request
`(24, 8)`. -/
theorem alloc_from_region_raises_iff_witness :
    (alloc_from_region { start_addr := 16, size := 64 } 24 8 = none ↔
      (USIZE ≤ align_up (ListNode.mk 16 64).start_addr 8 + 24 ∨
       (ListNode.mk 16 64).end_addr <
         align_up (ListNode.mk 16 64).start_addr 8 + 24 ∨
       (0 < (ListNode.mk 16 64).end_addr -
          (align_up (ListNode.mk 16 64).start_addr 8 + 24) ∧
        (ListNode.mk 16 64).end_addr -
          (align_up (ListNode.mk 16 64).start_addr 8 + 24) <
          sizeOfListNode))) ∧
    ∀ s, alloc_from_region { start_addr := 16, size := 64 } 24 8 = some s →
      s = align_up (ListNode.mk 16 64).start_addr 8 :=
  alloc_from_region_raises_iff { start_addr := 16, size := 64 } 24 8
    (by decide)

/-- The facts delivered by a successful `alloc_from_region`. -/
theorem alloc_from_region_some (region : ListNode) (size align : Nat)
    (s : Nat) (h : alloc_from_region region size align = some s) :
    s = align_up region.start_addr align ∧
    align_up region.start_addr align + size < USIZE ∧
    align_up region.start_addr align + size ≤ region.end_addr ∧
    (region.end_addr - (align_up region.start_addr align + size) = 0 ∨
     sizeOfListNode ≤
       region.end_addr - (align_up region.start_addr align + size)) := by
  rw [afr_eq] at h
  split_ifs at h with h1 h2 h3
  rw [Option.some.injEq] at h
  exact ⟨h.symm, h1, by omega, by omega⟩

/-- A successful `find_region` found a node of the list, detached exactly
that node, and its `alloc_from_region` succeeded. -/
theorem find_region_some (size align : Nat) : ∀ (fl : List ListNode)
    (r : ListNode) (s : Nat) (rest : List ListNode),
    find_region fl size align = some (r, s, rest) →
    ∃ lhs rhs, fl = lhs ++ r :: rhs ∧ rest = lhs ++ rhs ∧
      alloc_from_region r size align = some s := by
  intro fl
  induction fl with
  | nil => intro r s rest h; simp [find_region] at h
  | cons region fl ih =>
    intro r s rest h
    simp only [find_region] at h
    rcases hafr : alloc_from_region region size align with _ | a
    · rw [hafr] at h
      rw [Option.map_eq_some'] at h
      obtain ⟨x, hx, hmap⟩ := h
      obtain ⟨lhs, rhs, hfl, hrest, hres⟩ := ih x.1 x.2.1 x.2.2 (by rw [hx])
      simp only [Prod.mk.injEq] at hmap
      obtain ⟨he1, he2, he3⟩ := hmap
      subst he1; subst he2; subst he3
      exact ⟨region :: lhs, rhs, by simp [hfl], by simp [hrest], hres⟩
    · rw [hafr] at h
      simp only [Option.some.injEq, Prod.mk.injEq] at h
      obtain ⟨he1, he2, he3⟩ := h
      subst he1; subst he2; subst he3
      exact ⟨[], fl, rfl, rfl, hafr⟩

/-- `find_region` signals out-of-memory exactly when no single node of the
free list can host the request. -/
theorem find_region_none (size align : Nat) : ∀ fl : List ListNode,
    (∀ r ∈ fl, alloc_from_region r size align = none) →
    find_region fl size align = none := by
  intro fl
  induction fl with
  | nil => intro _; rfl
  | cons region fl ih =>
    intro h
    simp only [find_region, h region (List.mem_cons_self _ _)]
    rw [ih (fun r hr => h r (List.mem_cons_of_mem _ hr))]
    rfl

/-! ### C9: no coalescing (corrected)

Free nodes are indeed never merged, but the claimed out-of-memory outcome
also relies on the aligned start of each candidate node not overflowing:
near the top of the address space the wrapped `align_up` can make a node
accept a request larger than itself, so the claim as stated is false.  It
holds — in either release order of the two adjacent blocks — once each
block's aligned start cannot overflow. -/

/-- C9 counterexample.  Adjacent freed blocks `[2^64-80, 2^64-40)` and
`[2^64-40, 2^64-16)` (combined size 64), and the Rust-valid layout
`(33, 64)` whose adjusted request is exactly `(64, 64)`: instead of the
claimed out-of-memory, the wrapped aligned start `0` makes the first node
accept the request, and `alloc` returns address 0 and rewrites the list. -/
theorem ll_no_coalescing_cex :
    Layout.valid { size := 33, align := 64 } ∧
    size_align { size := 33, align := 64 } = (64, 64) ∧
    (ListNode.mk 18446744073709551536 40).end_addr =
      (ListNode.mk 18446744073709551576 24).start_addr ∧
    (size_align { size := 33, align := 64 }).1 = 24 + 40 ∧
    LinkedListAllocator.alloc
      [ListNode.mk 18446744073709551576 24, ListNode.mk 18446744073709551536 40]
      { size := 33, align := 64 } =
      some (some 0,
        [ListNode.mk 64 18446744073709551536,
         ListNode.mk 18446744073709551536 40]) := by
  refine ⟨⟨⟨6, rfl⟩, by decide⟩, by decide, by decide, by decide, by decide⟩

/-- C9 amended.  Two free nodes occupying adjacent address ranges (in either
order), each placed so that its aligned start cannot overflow the address
type, are never merged: an allocation whose adjusted size spans their
combined sizes fails against each of them individually, so whenever no other
single free region can host it either, `alloc` signals out-of-memory (and
leaves the list unchanged). -/
theorem ll_no_coalescing (a b : ListNode) (rest : List ListNode) (l : Layout)
    (hadj : a.end_addr = b.start_addr ∨ b.end_addr = a.start_addr)
    (ha : 0 < a.size) (hb : 0 < b.size)
    (hnwa : a.start_addr + (size_align l).2 ≤ USIZE)
    (hnwb : b.start_addr + (size_align l).2 ≤ USIZE)
    (hsize : (size_align l).1 = a.size + b.size)
    (hrest : ∀ r ∈ rest,
      alloc_from_region r (size_align l).1 (size_align l).2 = none) :
    LinkedListAllocator.alloc (a :: b :: rest) l =
      some (none, a :: b :: rest) := by
  have hpos : 0 < (size_align l).2 := by
    have h8 : (0:Nat) < alignOfListNode := by decide
    exact Nat.lt_of_lt_of_le h8 (le_max_right _ _)
  have hfa : alloc_from_region a (size_align l).1 (size_align l).2 = none := by
    rw [afr_eq]
    have hge := (align_up_dvd_le_lt a.start_addr (size_align l).2 hpos hnwa).2.1
    have hea : a.end_addr = a.start_addr + a.size := rfl
    split_ifs with h1 h2 h3
    · rfl
    · rfl
    · omega
    · rfl
  have hfb : alloc_from_region b (size_align l).1 (size_align l).2 = none := by
    rw [afr_eq]
    have hge := (align_up_dvd_le_lt b.start_addr (size_align l).2 hpos hnwb).2.1
    have heb : b.end_addr = b.start_addr + b.size := rfl
    split_ifs with h1 h2 h3
    · rfl
    · rfl
    · omega
    · rfl
  have hfr : find_region (a :: b :: rest) (size_align l).1 (size_align l).2
      = none := by
    refine find_region_none _ _ _ ?_
    intro r hr
    rcases List.mem_cons.mp hr with rfl | hr
    · exact hfa
    · rcases List.mem_cons.mp hr with rfl | hr
      · exact hfb
      · exact hrest r hr
  simp only [LinkedListAllocator.alloc, hfr]

/-- Witness for the amended C9: freed nodes `[32, 48)` and `[48, 64)` are
adjacent; a request whose adjusted size is their combined 32 bytes fails. -/
theorem ll_no_coalescing_witness :
    LinkedListAllocator.alloc
      [{ start_addr := 48, size := 16 }, { start_addr := 32, size := 16 }]
      { size := 32, align := 8 } =
    some (none,
      [{ start_addr := 48, size := 16 }, { start_addr := 32, size := 16 }]) :=
  ll_no_coalescing { start_addr := 48, size := 16 }
    { start_addr := 32, size := 16 } [] { size := 32, align := 8 }
    (Or.inr (by decide)) (by decide) (by decide) (by decide) (by decide)
    (by decide) (by intro r hr; exact absurd hr (by simp))

/-! ### Power-of-two and divisibility helpers for the adjusted layout -/

theorem pow2_dvd_of_le (a b : Nat) (ha : ∃ k, a = 2 ^ k) (hb : ∃ k, b = 2 ^ k)
    (h : a ≤ b) : a ∣ b := by
  obtain ⟨j, rfl⟩ := ha
  obtain ⟨k, rfl⟩ := hb
  exact pow_dvd_pow 2 ((Nat.pow_le_pow_iff_right (by omega)).mp h)

theorem max_align_pow2 (al : Nat) (h : ∃ k, al = 2 ^ k) :
    (∃ k, max al alignOfListNode = 2 ^ k) ∧
    alignOfListNode ∣ max al alignOfListNode := by
  rcases max_choice al alignOfListNode with hm | hm <;> rw [hm]
  · exact ⟨h, pow2_dvd_of_le _ _ ⟨3, rfl⟩ h (max_eq_left_iff.mp hm)⟩
  · exact ⟨⟨3, rfl⟩, dvd_refl _⟩

theorem dvd_max_of_dvd (d x y : Nat) (hx : d ∣ x) (hy : d ∣ y) :
    d ∣ max x y := by
  rcases max_choice x y with hm | hm <;> rw [hm] <;> assumption

/-- The adjusted size produced by `size_align` is a multiple of the node
alignment. -/
theorem size_align_dvd (l : Layout) (h : ∃ k, l.align = 2 ^ k) :
    alignOfListNode ∣ (size_align l).1 := by
  obtain ⟨m, hm⟩ := (max_align_pow2 l.align h).1
  have h8 := (max_align_pow2 l.align h).2
  have hd : alignOfListNode ∣ align_up l.size (max l.align alignOfListNode) := by
    rw [hm]
    exact dvd_trans (hm ▸ h8) (align_up_dvd_pow2 l.size m)
  exact dvd_max_of_dvd _ _ _ hd (by decide)

/-- A successful caller-facing `alloc` went through `alloc_from_region` on
some node of the list with the adjusted size and alignment. -/
theorem ll_alloc_some_afr (fl : List ListNode) (l : Layout) (p : Nat)
    (fl1 : List ListNode)
    (h : LinkedListAllocator.alloc fl l = some (some p, fl1)) :
    ∃ region, alloc_from_region region (size_align l).1 (size_align l).2
      = some p := by
  rcases hfr : find_region fl (size_align l).1 (size_align l).2
    with _ | ⟨region, astart, rest⟩
  · simp only [LinkedListAllocator.alloc, hfr] at h
    simp at h
  · simp only [LinkedListAllocator.alloc, hfr] at h
    obtain ⟨lhs, rhs, hfl, hrest, hres⟩ :=
      find_region_some _ _ fl region astart rest (by rw [hfr])
    refine ⟨region, ?_⟩
    split_ifs at h with hex
    · rw [Option.map_eq_some'] at h
      obtain ⟨fl2, _, hmap⟩ := h
      simp only [Prod.mk.injEq, Option.some.injEq] at hmap
      rw [← hmap.1]
      exact hres
    · simp only [Option.some.injEq, Prod.mk.injEq] at h
      rw [← h.1]
      exact hres

/-! ### C8: free-list round-trip (corrected)

`alloc_from_region` rejects a region whose leftover would be strictly
between zero and the `ListNode` footprint.  Hence re-allocating a *smaller*
block from the freed region can fail even though the freed region is larger
than the request: the claim as stated is false.  It holds when the adjusted
sizes are equal or differ by at least the node footprint. -/

/-- C8 counterexample.  One 32-byte free region; `alloc (32, 8)` succeeds at
16 and consumes it; releasing with the same layout restores the region; a
second request `(24, 8)` — smaller size, same alignment — fails with
out-of-memory, because the 8-byte leftover cannot host a `ListNode`. -/
theorem ll_round_trip_cex :
    LinkedListAllocator.alloc [{ start_addr := 16, size := 32 }]
      { size := 32, align := 8 } = some (some 16, []) ∧
    LinkedListAllocator.dealloc [] 16 { size := 32, align := 8 } =
      some [{ start_addr := 16, size := 32 }] ∧
    (24 ≤ 32 ∧ (8:Nat) ≤ 8) ∧
    LinkedListAllocator.alloc [{ start_addr := 16, size := 32 }]
      { size := 24, align := 8 } =
      some (none, [{ start_addr := 16, size := 32 }]) := by
  refine ⟨by decide, by decide, by decide, by decide⟩

/-- C8 amended.  If `alloc(l1)` succeeds at `p` on the free-list allocator,
then after `release(p, l1)` a subsequent `alloc(l2)` with a compatible
(power-of-two, no stronger) alignment succeeds — not necessarily at `p` —
provided the adjusted sizes are equal or the second is smaller by at least
the `ListNode` footprint. -/
theorem ll_round_trip (fl fl1 : List ListNode) (l1 l2 : Layout) (p : Nat)
    (halloc : LinkedListAllocator.alloc fl l1 = some (some p, fl1))
    (hv1 : ∃ k, l1.align = 2 ^ k) (hv2 : ∃ k, l2.align = 2 ^ k)
    (halign : l2.align ≤ l1.align)
    (hsize : (size_align l2).1 = (size_align l1).1 ∨
      (size_align l2).1 + sizeOfListNode ≤ (size_align l1).1) :
    ∃ fl2 q fl3, LinkedListAllocator.dealloc fl1 p l1 = some fl2 ∧
      LinkedListAllocator.alloc fl2 l2 = some (some q, fl3) := by
  obtain ⟨region, hafr⟩ := ll_alloc_some_afr fl l1 p fl1 halloc
  obtain ⟨hp, hnof, hfit, hexd⟩ := alloc_from_region_some _ _ _ _ hafr
  have ha1p : (size_align l1).2 ∣ p := by
    obtain ⟨m, hm⟩ := (max_align_pow2 l1.align hv1).1
    rw [hp]
    show max l1.align alignOfListNode ∣
      align_up region.start_addr (max l1.align alignOfListNode)
    rw [hm]
    exact align_up_dvd_pow2 region.start_addr m
  have h8a1 : alignOfListNode ∣ (size_align l1).2 := (max_align_pow2 l1.align hv1).2
  have h8p : alignOfListNode ∣ p := dvd_trans h8a1 ha1p
  have h16s1 : sizeOfListNode ≤ (size_align l1).1 := le_max_right _ _
  have hnofp : p + (size_align l1).1 < USIZE := by rw [hp]; exact hnof
  have hs2s1 : (size_align l2).1 ≤ (size_align l1).1 := by
    rcases hsize with h | h <;> omega
  -- release restores a node spanning exactly the adjusted first allocation
  have hdeal : LinkedListAllocator.dealloc fl1 p l1 =
      some ({ start_addr := p, size := (size_align l1).1 } :: fl1) := by
    unfold LinkedListAllocator.dealloc add_free_region
    rw [if_pos ⟨align_up_of_dvd p alignOfListNode h8p, h16s1⟩]
  -- the freed node at the head of the list accepts the second request
  have ha2a1 : (size_align l2).2 ∣ (size_align l1).2 :=
    pow2_dvd_of_le _ _ (max_align_pow2 l2.align hv2).1 (max_align_pow2 l1.align hv1).1
      (max_le_max halign (Nat.le_refl _))
  have ha2p : (size_align l2).2 ∣ p := dvd_trans ha2a1 ha1p
  have hpal : align_up p (size_align l2).2 = p :=
    align_up_of_dvd p (size_align l2).2 ha2p
  have hafr2 : alloc_from_region { start_addr := p, size := (size_align l1).1 }
      (size_align l2).1 (size_align l2).2 = some p := by
    rw [afr_eq]
    simp only [hpal, ListNode.end_addr]
    have h16 : sizeOfListNode = 16 := rfl
    split_ifs with h1 h2 h3
    all_goals first
      | rfl
      | (exfalso; simp only [ListNode.end_addr] at *; omega)
  have hfr2 : find_region ({ start_addr := p, size := (size_align l1).1 } :: fl1)
      (size_align l2).1 (size_align l2).2 =
      some ({ start_addr := p, size := (size_align l1).1 }, p, fl1) := by
    simp only [find_region, hafr2]
  have h8s2 : alignOfListNode ∣ (size_align l2).1 := size_align_dvd l2 hv2
  rcases hsize with heq | hlt
  · -- equal adjusted sizes: the node is consumed whole, no reinsertion
    have hall2 : LinkedListAllocator.alloc
        ({ start_addr := p, size := (size_align l1).1 } :: fl1) l2 =
        some (some p, fl1) := by
      simp only [LinkedListAllocator.alloc, hfr2]
      rw [if_neg (by simp only [ListNode.end_addr]; omega)]
    exact ⟨_, p, _, hdeal, hall2⟩
  · -- strictly smaller: the excess hosts a new node at `p + size2`
    have hall2 : LinkedListAllocator.alloc
        ({ start_addr := p, size := (size_align l1).1 } :: fl1) l2 =
        some (some p,
          { start_addr := p + (size_align l2).1,
            size := ListNode.end_addr
                { start_addr := p, size := (size_align l1).1 }
              - (p + (size_align l2).1) } :: fl1) := by
      have h16 : sizeOfListNode = 16 := rfl
      simp only [LinkedListAllocator.alloc, hfr2]
      rw [if_pos (by simp only [ListNode.end_addr]; omega)]
      unfold add_free_region
      rw [if_pos ⟨align_up_of_dvd _ alignOfListNode (dvd_add h8p h8s2),
          by simp only [ListNode.end_addr]; omega⟩]
      rfl
    exact ⟨_, p, _, hdeal, hall2⟩

/-- Witness for the amended C8: heap region `[16, 64)`; `alloc (32, 8)`
succeeds at 16; after releasing it, `alloc (16, 8)` (32 - 16 = 16 = one node
footprint smaller) succeeds. -/
theorem ll_round_trip_witness :
    ∃ fl2 q fl3,
      LinkedListAllocator.dealloc [{ start_addr := 48, size := 16 }] 16
        { size := 32, align := 8 } = some fl2 ∧
      LinkedListAllocator.alloc fl2 { size := 16, align := 8 } =
        some (some q, fl3) :=
  ll_round_trip [{ start_addr := 16, size := 48 }]
    [{ start_addr := 48, size := 16 }]
    { size := 32, align := 8 } { size := 16, align := 8 } 16
    (by decide) ⟨3, rfl⟩ ⟨3, rfl⟩ (by decide) (by decide)

/-! ### C7: the free-list node invariant along whole runs

The ghost field `alloced` records the outstanding allocations
`(returned address, layout)`; a release is admitted only for a recorded
pair, which is the documented precondition that every release matches an
earlier, still-outstanding allocation with the same layout. -/

structure LLState where
  free : List ListNode
  alloced : List (Nat × Layout)
deriving DecidableEq

inductive LLOp where
  | alloc (layout : Layout)
  | free (ptr : Nat) (layout : Layout)
deriving DecidableEq

/-- The layout carried by an allocation request satisfies the `Layout`
validity invariant the source's `Layout` type guarantees (a release's layout
is constrained by the matching precondition instead). -/
def LLOp.layoutValid : LLOp → Prop
  | .alloc l => l.valid
  | .free _ _ => True

/-- One call on the locked free-list allocator.  `none` is a panic (failed
assertion) or a release that violates the matching precondition. -/
def llStep (s : LLState) : LLOp → Option LLState
  | .alloc l =>
    match LinkedListAllocator.alloc s.free l with
    | none => none
    | some (none, fl2) => some { s with free := fl2 }
    | some (some p, fl2) => some { free := fl2, alloced := (p, l) :: s.alloced }
  | .free p l =>
    if (p, l) ∈ s.alloced then
      (LinkedListAllocator.dealloc s.free p l).map
        (fun fl2 => { free := fl2, alloced := s.alloced.erase (p, l) })
    else
      none

/-- A whole run of calls. -/
def llRun (s : LLState) : List LLOp → Option LLState
  | [] => some s
  | op :: ops =>
    match llStep s op with
    | none => none
    | some s2 => llRun s2 ops

/-- Disjointness of two `(start, size)` ranges. -/
def rdisj (x y : Nat × Nat) : Prop := x.1 + x.2 ≤ y.1 ∨ y.1 + y.2 ≤ x.1

instance (x y : Nat × Nat) : Decidable (rdisj x y) := by
  unfold rdisj; infer_instance

/-- The range a free node occupies. -/
def ListNode.region (n : ListNode) : Nat × Nat := (n.start_addr, n.size)

/-- The range an outstanding allocation occupies after the `size_align`
adjustment (the footprint `dealloc` will hand back). -/
def allocedRange (e : Nat × Layout) : Nat × Nat := (e.1, (size_align e.2).1)

/-- The free-list node invariant of C7: every node is large enough to host a
`ListNode`, is aligned for one, and the nodes are pairwise disjoint. -/
def freeListInv (fl : List ListNode) : Prop :=
  (∀ r ∈ fl, sizeOfListNode ≤ r.size ∧ alignOfListNode ∣ r.start_addr) ∧
  fl.Pairwise (fun x y => rdisj x.region y.region)

/-- The full inductive invariant: the free-list invariant, alignment and
disjointness of the outstanding allocations, and confinement of every free
node and outstanding allocation below the heap bound `H` (which keeps every
aligned-start computation away from the wraparound). -/
def llInv (H : Nat) (s : LLState) : Prop :=
  freeListInv s.free ∧
  (∀ e ∈ s.alloced, alignOfListNode ∣ e.1) ∧
  s.alloced.Pairwise (fun x y => rdisj (allocedRange x) (allocedRange y)) ∧
  (∀ r ∈ s.free, ∀ e ∈ s.alloced, rdisj r.region (allocedRange e)) ∧
  (∀ r ∈ s.free, r.end_addr ≤ H) ∧
  (∀ e ∈ s.alloced, e.1 + (size_align e.2).1 ≤ H)

theorem rdisj_symm (x y : Nat × Nat) (h : rdisj x y) : rdisj y x := h.symm

/-- Shrinking the first range preserves disjointness. -/
theorem rdisj_mono (x x' y : Nat × Nat) (h1 : x.1 ≤ x'.1)
    (h2 : x'.1 + x'.2 ≤ x.1 + x.2) (h : rdisj x y) : rdisj x' y := by
  unfold rdisj at *
  omega

/-- Removing the node a `Pairwise` list was split around: the node is
disjoint from everything else and the remainder is still pairwise. -/
theorem pairwise_middle {α : Type} {R : α → α → Prop}
    (hsymm : ∀ x y, R x y → R y x) (lhs rhs : List α) (a : α)
    (h : (lhs ++ a :: rhs).Pairwise R) :
    (∀ x ∈ lhs ++ rhs, R a x) ∧ (lhs ++ rhs).Pairwise R := by
  rw [List.pairwise_append] at h
  obtain ⟨hp1, hp2, hcross⟩ := h
  rw [List.pairwise_cons] at hp2
  rw [List.pairwise_append]
  refine ⟨?_, hp1, hp2.2,
    fun x hx y hy => hcross x hx y (List.mem_cons_of_mem _ hy)⟩
  intro x hx
  rcases List.mem_append.mp hx with hx | hx
  · exact hsymm _ _ (hcross x hx a (List.mem_cons_self _ _))
  · exact hp2.1 x hx

theorem mem_middle {α : Type} {lhs rhs : List α} {a x : α}
    (h : x ∈ lhs ++ rhs) : x ∈ lhs ++ a :: rhs := by
  rcases List.mem_append.mp h with h | h
  · exact List.mem_append_left _ h
  · exact List.mem_append_right _ (List.mem_cons_of_mem _ h)

/-- In a pairwise list, the erased element is related to every survivor. -/
theorem pairwise_erase_rel {α : Type} [BEq α] [LawfulBEq α] {R : α → α → Prop}
    (hsymm : ∀ x y, R x y → R y x) :
    ∀ (l : List α) (a b : α), l.Pairwise R → a ∈ l → b ∈ l.erase a → R a b := by
  intro l
  induction l with
  | nil => intro a b _ ha _; exact absurd ha (by simp)
  | cons x xs ih =>
    intro a b hp ha hb
    rw [List.pairwise_cons] at hp
    rw [List.erase_cons] at hb
    by_cases hxa : x = a
    · rw [if_pos (by simp [hxa])] at hb
      subst hxa
      exact hp.1 b hb
    · rw [if_neg (by simp [hxa])] at hb
      have ha2 : a ∈ xs := by
        rcases List.mem_cons.mp ha with h | h
        · exact absurd h.symm hxa
        · exact h
      rcases List.mem_cons.mp hb with rfl | hb
      · exact hsymm _ _ (hp.1 a ha2)
      · exact ih a b hp.2 ha2 hb

/-- Out-of-memory leaves the free list unchanged. -/
theorem ll_alloc_none (fl : List ListNode) (l : Layout) (fl2 : List ListNode)
    (h : LinkedListAllocator.alloc fl l = some (none, fl2)) : fl2 = fl := by
  rcases hfr : find_region fl (size_align l).1 (size_align l).2
    with _ | ⟨region, astart, rest⟩
  · simp only [LinkedListAllocator.alloc, hfr] at h
    rw [Option.some.injEq, Prod.mk.injEq] at h
    exact h.2.symm
  · simp only [LinkedListAllocator.alloc, hfr] at h
    split_ifs at h with hex
    · rw [Option.map_eq_some'] at h
      obtain ⟨fl3, _, hmap⟩ := h
      simp at hmap
    · simp at h

/-- Full shape of a successful caller-facing `alloc`: the found node is
removed, and either it was consumed whole, or the excess (at least one node
footprint) was reinserted at the head. -/
theorem ll_alloc_some_split (fl : List ListNode) (l : Layout) (p : Nat)
    (fl2 : List ListNode)
    (h : LinkedListAllocator.alloc fl l = some (some p, fl2)) :
    ∃ region lhs rhs,
      fl = lhs ++ region :: rhs ∧
      alloc_from_region region (size_align l).1 (size_align l).2 = some p ∧
      ((region.end_addr = p + (size_align l).1 ∧ fl2 = lhs ++ rhs) ∨
       (p + (size_align l).1 + sizeOfListNode ≤ region.end_addr ∧
        fl2 = { start_addr := p + (size_align l).1,
                size := region.end_addr - (p + (size_align l).1) }
          :: (lhs ++ rhs))) := by
  rcases hfr : find_region fl (size_align l).1 (size_align l).2
    with _ | ⟨region, astart, rest⟩
  · simp only [LinkedListAllocator.alloc, hfr] at h
    simp at h
  · simp only [LinkedListAllocator.alloc, hfr] at h
    obtain ⟨lhs, rhs, hfl, hrest, hres⟩ :=
      find_region_some _ _ fl region astart rest (by rw [hfr])
    obtain ⟨hps, hnof, hfit, hexd⟩ := alloc_from_region_some _ _ _ _ hres
    rw [← hps] at hnof hfit hexd
    have h16 : sizeOfListNode = 16 := rfl
    split_ifs at h with hex
    · rw [Option.map_eq_some'] at h
      obtain ⟨fl3, hadd, hmap⟩ := h
      rw [Prod.mk.injEq, Option.some.injEq] at hmap
      obtain ⟨hap, hfl2⟩ := hmap
      subst hap
      unfold add_free_region at hadd
      split_ifs at hadd with hc
      · rw [Option.some.injEq] at hadd
        subst hrest
        subst hfl2
        exact ⟨region, lhs, rhs, hfl, hres, Or.inr ⟨by omega, hadd.symm⟩⟩
    · rw [Option.some.injEq, Prod.mk.injEq, Option.some.injEq] at h
      obtain ⟨hap, hfl2⟩ := h
      subst hap
      subst hrest
      exact ⟨region, lhs, rhs, hfl, hres, Or.inl ⟨by omega, hfl2.symm⟩⟩

/-- One successful step of the free-list allocator preserves the inductive
invariant, for a heap bound within the lower half of the address space. -/
theorem llStep_inv (H : Nat) (s : LLState) (op : LLOp) (s2 : LLState)
    (hH : H ≤ isizeMAX + 1)
    (hv : op.layoutValid) (hinv : llInv H s) (hstep : llStep s op = some s2) :
    llInv H s2 := by
  obtain ⟨⟨hfsz, hfpw⟩, haal, hapw, hcross, hbf, hba⟩ := hinv
  cases op with
  | alloc l =>
    obtain ⟨hvp, hvsz⟩ := hv
    rcases hall : LinkedListAllocator.alloc s.free l with _ | ⟨_ | p, fl2⟩
    · simp only [llStep, hall] at hstep
      exact Option.noConfusion hstep
    · simp only [llStep, hall] at hstep
      rw [Option.some.injEq] at hstep
      subst hstep
      have hfl : fl2 = s.free := ll_alloc_none s.free l fl2 hall
      subst hfl
      exact ⟨⟨hfsz, hfpw⟩, haal, hapw, hcross, hbf, hba⟩
    · simp only [llStep, hall] at hstep
      rw [Option.some.injEq] at hstep
      subst hstep
      obtain ⟨region, lhs, rhs, hfl, hres, hsplit⟩ :=
        ll_alloc_some_split s.free l p fl2 hall
      obtain ⟨hps, hnof, hfit, hexd⟩ := alloc_from_region_some _ _ _ _ hres
      have h16 : sizeOfListNode = 16 := rfl
      have hU : USIZE = 18446744073709551616 := rfl
      have hI : isizeMAX = 9223372036854775807 := rfl
      have hre : region.end_addr = region.start_addr + region.size := rfl
      rw [hfl] at hfsz hfpw hcross hbf
      have hregmem : region ∈ lhs ++ region :: rhs :=
        List.mem_append_right _ (List.mem_cons_self _ _)
      have hregbnd : region.end_addr ≤ H := hbf region hregmem
      have ha1pos : 0 < (size_align l).2 :=
        Nat.lt_of_lt_of_le (by decide) (le_max_right _ _)
      have halb : (size_align l).2 ≤ isizeMAX + 1 := by
        show max l.align alignOfListNode ≤ isizeMAX + 1
        exact max_le (by omega) (by decide)
      have hnw : region.start_addr + (size_align l).2 ≤ USIZE := by omega
      have h8a1 : alignOfListNode ∣ (size_align l).2 :=
        (max_align_pow2 l.align hvp).2
      have ha1p : (size_align l).2 ∣ p := by
        obtain ⟨m, hm⟩ := (max_align_pow2 l.align hvp).1
        rw [hps]
        show max l.align alignOfListNode ∣
          align_up region.start_addr (max l.align alignOfListNode)
        rw [hm]
        exact align_up_dvd_pow2 region.start_addr m
      have h8p : alignOfListNode ∣ p := dvd_trans h8a1 ha1p
      have h8s : alignOfListNode ∣ (size_align l).1 := size_align_dvd l hvp
      have hge : region.start_addr ≤ p := by
        rw [hps]; exact (align_up_dvd_le_lt _ _ ha1pos hnw).2.1
      have hfitp : p + (size_align l).1 ≤ region.start_addr + region.size := by
        rw [hps]; omega
      obtain ⟨hregdisj, hrestpw⟩ :=
        pairwise_middle (fun x y => rdisj_symm _ _) lhs rhs region hfpw
      have hmono_alloc : ∀ y, rdisj region.region y →
          rdisj (allocedRange (p, l)) y := by
        intro y hy
        exact rdisj_mono region.region (allocedRange (p, l)) y hge hfitp hy
      rcases hsplit with ⟨hend, hfl2⟩ | ⟨hexc, hfl2⟩ <;> subst hfl2
      · -- the node was consumed whole
        refine ⟨⟨fun r hr => hfsz r (mem_middle hr), hrestpw⟩, ?_, ?_, ?_, ?_, ?_⟩
        · intro e he
          rcases List.mem_cons.mp he with rfl | he
          · exact h8p
          · exact haal e he
        · refine List.Pairwise.cons ?_ hapw
          intro e he
          exact hmono_alloc (allocedRange e) (hcross region hregmem e he)
        · intro r hr e he
          rcases List.mem_cons.mp he with rfl | he
          · exact rdisj_symm _ _ (hmono_alloc r.region (hregdisj r hr))
          · exact hcross r (mem_middle hr) e he
        · exact fun r hr => hbf r (mem_middle hr)
        · intro e he
          rcases List.mem_cons.mp he with rfl | he
          · show p + (size_align l).1 ≤ H
            omega
          · exact hba e he
      · -- the excess was reinserted as a new node
        have hmono_new : ∀ y, rdisj region.region y →
            rdisj (ListNode.mk (p + (size_align l).1)
              (region.end_addr - (p + (size_align l).1))).region y := by
          intro y hy
          refine rdisj_mono region.region _ y ?_ ?_ hy
          · show region.start_addr ≤ p + (size_align l).1
            omega
          · show p + (size_align l).1 +
              (region.end_addr - (p + (size_align l).1)) ≤
              region.start_addr + region.size
            omega
        refine ⟨⟨?_, ?_⟩, ?_, ?_, ?_, ?_, ?_⟩
        · intro r hr
          rcases List.mem_cons.mp hr with rfl | hr
          · refine ⟨?_, dvd_add h8p h8s⟩
            show sizeOfListNode ≤ region.end_addr - (p + (size_align l).1)
            omega
          · exact hfsz r (mem_middle hr)
        · refine List.Pairwise.cons ?_ hrestpw
          intro r hr
          exact hmono_new r.region (hregdisj r hr)
        · intro e he
          rcases List.mem_cons.mp he with rfl | he
          · exact h8p
          · exact haal e he
        · refine List.Pairwise.cons ?_ hapw
          intro e he
          exact hmono_alloc (allocedRange e) (hcross region hregmem e he)
        · intro r hr e he
          rcases List.mem_cons.mp hr with rfl | hr
          · rcases List.mem_cons.mp he with rfl | he
            · exact Or.inr (Nat.le_refl _)
            · exact hmono_new (allocedRange e) (hcross region hregmem e he)
          · rcases List.mem_cons.mp he with rfl | he
            · exact rdisj_symm _ _ (hmono_alloc r.region (hregdisj r hr))
            · exact hcross r (mem_middle hr) e he
        · intro r hr
          rcases List.mem_cons.mp hr with rfl | hr
          · show p + (size_align l).1 +
              (region.end_addr - (p + (size_align l).1)) ≤ H
            omega
          · exact hbf r (mem_middle hr)
        · intro e he
          rcases List.mem_cons.mp he with rfl | he
          · show p + (size_align l).1 ≤ H
            omega
          · exact hba e he
  | free p l =>
    simp only [llStep] at hstep
    split_ifs at hstep with hmem
    rw [Option.map_eq_some'] at hstep
    obtain ⟨fl2, hdeal, hs2⟩ := hstep
    subst hs2
    unfold LinkedListAllocator.dealloc add_free_region at hdeal
    split_ifs at hdeal with hc
    rw [Option.some.injEq] at hdeal
    subst hdeal
    have h8p : alignOfListNode ∣ p :=
      dvd_of_align_up_eq p alignOfListNode (by decide) (by decide) hc.1
    refine ⟨⟨?_, ?_⟩, ?_, ?_, ?_, ?_, ?_⟩
    · intro r hr
      rcases List.mem_cons.mp hr with rfl | hr
      · exact ⟨hc.2, h8p⟩
      · exact hfsz r hr
    · refine List.Pairwise.cons ?_ hfpw
      intro r hr
      exact rdisj_symm _ _ (hcross r hr (p, l) hmem)
    · intro e he
      exact haal e (List.mem_of_mem_erase he)
    · exact hapw.sublist (List.erase_sublist _ _)
    · intro r hr e he
      rcases List.mem_cons.mp hr with rfl | hr
      · have he2 : e ∈ s.alloced.erase (p, l) := he
        exact pairwise_erase_rel (fun x y => rdisj_symm _ _)
          s.alloced (p, l) e hapw hmem he2
      · exact hcross r hr e (List.mem_of_mem_erase he)
    · intro r hr
      rcases List.mem_cons.mp hr with rfl | hr
      · show p + (size_align l).1 ≤ H
        exact hba (p, l) hmem
      · exact hbf r hr
    · intro e he
      exact hba e (List.mem_of_mem_erase he)

/-- A successful run preserves the inductive invariant. -/
theorem llRun_inv (ops : List LLOp) : ∀ (H : Nat) (s s2 : LLState),
    H ≤ isizeMAX + 1 →
    (∀ op ∈ ops, op.layoutValid) → llInv H s → llRun s ops = some s2 →
    llInv H s2 := by
  induction ops with
  | nil =>
    intro H s s2 _ _ hinv h
    simp only [llRun, Option.some.injEq] at h
    subst h
    exact hinv
  | cons op ops ih =>
    intro H s s2 hH hv hinv h
    simp only [llRun] at h
    rcases hst : llStep s op with _ | s3
    · rw [hst] at h
      exact absurd h (by simp)
    · rw [hst] at h
      exact ih H s3 s2 hH (fun o ho => hv o (List.mem_cons_of_mem _ ho))
        (llStep_inv H s op s3 hH (hv op (List.mem_cons_self _ _)) hinv hst) h

/-! ### C7: the free-list node invariant (corrected)

The claim is false as stated: with a heap in the upper half of the address
space, a Rust-valid request whose aligned start wraps makes a small node
accept a huge allocation, and the reinserted excess then overlaps another
free node — the invariant's pairwise disjointness breaks on a reachable
state.  The invariant does hold whenever the heap lies in the lower half of
the address space, where no aligned-start computation can wrap. -/

/-- C7 counterexample.  Valid `init` of the heap `[3·2^62+8, 3·2^62+40)`,
two 16-byte allocations with the valid layout `(16, 8)`, both released
(matching layouts), then one allocation with the valid layout
`(2^62, 2^62)`: its aligned start wraps to 0, the 16-byte head node accepts
it, and the reinserted excess `[2^62, 3·2^62+40)` overlaps the other free
node `[3·2^62+8, 3·2^62+24)` — the free list of the reached state violates
pairwise disjointness. -/
theorem ll_free_list_invariant_cex :
    Layout.valid { size := 16, align := 8 } ∧
    Layout.valid { size := 4611686018427387904, align := 4611686018427387904 } ∧
    LinkedListAllocator.init 13835058055282163720 32 =
      some [ListNode.mk 13835058055282163720 32] ∧
    llRun { free := [ListNode.mk 13835058055282163720 32], alloced := [] }
      [LLOp.alloc { size := 16, align := 8 },
       LLOp.alloc { size := 16, align := 8 },
       LLOp.free 13835058055282163720 { size := 16, align := 8 },
       LLOp.free 13835058055282163736 { size := 16, align := 8 },
       LLOp.alloc { size := 4611686018427387904, align := 4611686018427387904 }] =
      some { free := [ListNode.mk 4611686018427387904 9223372036854775848,
                      ListNode.mk 13835058055282163720 16],
             alloced := [(0, { size := 4611686018427387904,
                               align := 4611686018427387904 })] } ∧
    ¬ ([ListNode.mk 4611686018427387904 9223372036854775848,
        ListNode.mk 13835058055282163720 16].Pairwise
        (fun x y => rdisj x.region y.region)) := by
  refine ⟨⟨⟨3, rfl⟩, by decide⟩, ⟨⟨62, rfl⟩, by decide⟩, by decide, by decide,
    by decide⟩

/-- C7 amended.  From a valid `init` of a heap confined to the lower half of
the address space (`heap_start + heap_size ≤ 2^63`), along any run of
`alloc` calls carrying Rust-valid layouts and matching `free` calls (each
release names an outstanding allocation and its layout, the precondition
recorded by `llStep`), every reachable free list satisfies the node
invariant: each node's region is at least the `ListNode` footprint, starts
at an address aligned for a `ListNode`, and the regions are pairwise
disjoint. -/
theorem ll_free_list_invariant (heap_start heap_size : Nat)
    (fl0 : List ListNode) (ops : List LLOp) (s2 : LLState)
    (hheap : heap_start + heap_size ≤ isizeMAX + 1)
    (hinit : LinkedListAllocator.init heap_start heap_size = some fl0)
    (hv : ∀ op ∈ ops, op.layoutValid)
    (hrun : llRun { free := fl0, alloced := [] } ops = some s2) :
    (∀ r ∈ s2.free, sizeOfListNode ≤ r.size ∧
      align_up r.start_addr alignOfListNode = r.start_addr) ∧
    s2.free.Pairwise (fun x y => rdisj x.region y.region) := by
  have hinv0 : llInv (heap_start + heap_size) { free := fl0, alloced := [] } := by
    unfold LinkedListAllocator.init add_free_region at hinit
    split_ifs at hinit with hc
    rw [Option.some.injEq] at hinit
    subst hinit
    refine ⟨⟨?_, ?_⟩, by simp, by simp, by simp, ?_, by simp⟩
    · intro r hr
      rw [List.mem_singleton] at hr
      subst hr
      exact ⟨hc.2, dvd_of_align_up_eq _ _ (by decide) (by decide) hc.1⟩
    · simp
    · intro r hr
      rw [List.mem_singleton] at hr
      subst hr
      exact Nat.le_refl _
  obtain ⟨⟨h1, h2⟩, _, _, _, _, _⟩ :=
    llRun_inv ops (heap_start + heap_size) _ s2 hheap hv hinv0 hrun
  exact ⟨fun r hr => ⟨(h1 r hr).1, align_up_of_dvd _ _ (h1 r hr).2⟩, h2⟩

/-- Witness for the amended C7: heap `[16, 80)`, one allocation `(20, 4)`
(adjusted to 24 bytes) at 16, then its release; the final free list is the
released block followed by the split remainder, and it satisfies the
invariant. -/
theorem ll_free_list_invariant_witness :
    (∀ r ∈ (LLState.mk [ListNode.mk 16 24, ListNode.mk 40 40] []).free,
      sizeOfListNode ≤ r.size ∧
      align_up r.start_addr alignOfListNode = r.start_addr) ∧
    (LLState.mk [ListNode.mk 16 24, ListNode.mk 40 40] []).free.Pairwise
      (fun x y => rdisj x.region y.region) :=
  ll_free_list_invariant 16 64 [ListNode.mk 16 64]
    [LLOp.alloc { size := 20, align := 4 }, LLOp.free 16 { size := 20, align := 4 }]
    (LLState.mk [ListNode.mk 16 24, ListNode.mk 40 40] [])
    (by decide) (by decide)
    (by
      intro op hop
      simp only [List.mem_cons] at hop
      rcases hop with rfl | rfl | h
      · exact ⟨⟨2, rfl⟩, by decide⟩
      · trivial
      · exact absurd h (by simp))
    (by decide)
